import Mathlib

/-!
# Verification of the UHD sample-format converters and USRP1 bring-up

Shallow embedding of `host/lib/convert/convert_common.hpp` (per-sample
conversion routines between packed fixed-point words and complex
floating-point samples) and of the property-tree population order of
`host/lib/usrp/usrp1/usrp1_impl.cpp`.

Modelling conventions:
* C++ machine integers are modelled as `ℕ`/`ℤ` with explicit `% 2^w`
  at the points where the C++ code performs a narrowing conversion.
  A function whose C++ parameter is a fixed-width unsigned type reduces
  its argument modulo `2^w` on entry, since callers can only supply
  values of that width.  Conversion of an out-of-range floating value to
  a signed integer type is modelled as two's-complement wraparound.
* IEEE-754 values are modelled as exact rationals.  A binary floating
  multiplication rounds its exact rational product to the nearest
  representable value (ties to even) at the significand precision of the
  C++ type: 24 bits for `float`, 53 bits for `double`.  Exponents are
  unbounded (no overflow, underflow or denormal handling).
* The `float(...)` cast that narrows a `double` to a `float` is modelled
  as rounding to 24 significand bits.
-/

namespace UHD

/-! ## Machine-integer primitives -/

/-- Conversion of a signed integer value to `uint16_t` (C++ reduces the
value modulo `2^16`). -/
def toU16 (x : ℤ) : ℕ := (x % 2^16).toNat

/-- Conversion of an unsigned value to `int16_t`: the low 16 bits are
reinterpreted as a two's-complement 16-bit integer. -/
def toS16 (n : ℕ) : ℤ :=
  if n % 2^16 < 2^15 then ((n % 2^16 : ℕ) : ℤ) else ((n % 2^16 : ℕ) : ℤ) - 2^16

/-! ## Binary floating-point model over `ℚ` -/

/-- Round a rational to the nearest integer, ties to even (the IEEE-754
default rounding direction, used when a float product is rounded). -/
def rne (x : ℚ) : ℤ :=
  if x - ⌊x⌋ < 1/2 then ⌊x⌋
  else if 1/2 < x - ⌊x⌋ then ⌊x⌋ + 1
  else if ⌊x⌋ % 2 = 0 then ⌊x⌋ else ⌊x⌋ + 1

/-- Round a rational to a binary floating value with `prec` significand
bits (round to nearest, ties to even, unbounded exponent).  `prec = 24`
models IEEE-754 binary32 (`float`), `prec = 53` models binary64
(`double`). -/
def roundFP (prec : ℕ) (q : ℚ) : ℚ :=
  if q = 0 then 0
  else
    let e := Int.log 2 |q|
    let m := rne (|q| * 2 ^ ((prec : ℤ) - 1 - e))
    (if 0 ≤ q then 1 else -1) * ((m : ℚ) * 2 ^ (e - ((prec : ℤ) - 1)))

/-- The exact value of a `float * float` product: the rational product
rounded to binary32 precision. -/
def fmul32 (a b : ℚ) : ℚ := roundFP 24 (a * b)

/-- The exact value of a `double * double` (or `int * double`) product:
the rational product rounded to binary64 precision. -/
def fmul64 (a b : ℚ) : ℚ := roundFP 53 (a * b)

/-- C++ floating-to-integer conversion: truncation toward zero. -/
def truncZ (q : ℚ) : ℤ := if 0 ≤ q then ⌊q⌋ else ⌈q⌉

/-- `x` is representable as a binary floating value with a `prec`-bit
significand (unbounded exponent). -/
def repFP (prec : ℕ) (x : ℚ) : Prop :=
  ∃ m e : ℤ, m.natAbs < 2^prec ∧ x = (m : ℚ) * 2 ^ e

/-! ## Sample types (`convert_common.hpp` typedefs) -/

/-- `sc16_t = std::complex<int16_t>`: components are signed integers
(16-bit range where the C++ type constrains them). -/
structure Sc16 where
  re : ℤ
  im : ℤ
deriving DecidableEq

/-- `fc32_t = std::complex<float>`: components are (float-valued)
rationals. -/
structure Fc32 where
  re : ℚ
  im : ℚ
deriving DecidableEq

/-- `fc64_t = std::complex<double>`: components are (double-valued)
rationals. -/
structure Fc64 where
  re : ℚ
  im : ℚ
deriving DecidableEq

/-! ## Converters from `convert_common.hpp` -/

/-- `sc16_to_item32` (convert_common.hpp lines 54-58):
real is cast to `uint16_t`, shifted into bits 31-16; imag into bits
15-0.  The scale factor parameter is unused in the source. -/
def sc16_to_item32 (num : Sc16) (_scale : ℚ) : ℕ :=
  (toU16 num.re <<< 16) ||| toU16 num.im

/-- `item32_to_sc16` (lines 63-68): bits 31-16 are reinterpreted as the
`int16_t` real component, bits 15-0 as the imag component. -/
def item32_to_sc16 (item : ℕ) (_scale : ℚ) : Sc16 :=
  ⟨toS16 ((item % 2^32) >>> 16), toS16 (item % 2^32)⟩

/-- `fc32_to_item32` (lines 73-77): each float component is multiplied
by the float scale factor, cast to `int16_t` (truncation toward zero),
then to `uint16_t`, and packed with real in bits 31-16. -/
def fc32_to_item32 (num : Fc32) (scale : ℚ) : ℕ :=
  (toU16 (truncZ (fmul32 num.re scale)) <<< 16) ||| toU16 (truncZ (fmul32 num.im scale))

/-- `item32_to_fc32` (lines 82-87): each 16-bit field is reinterpreted
as `int16_t` and multiplied by the float scale factor. -/
def item32_to_fc32 (item : ℕ) (scale : ℚ) : Fc32 :=
  ⟨fmul32 (toS16 ((item % 2^32) >>> 16) : ℤ) scale,
   fmul32 (toS16 (item % 2^32) : ℤ) scale⟩

/-- `fc64_to_item32` (lines 92-96): like `fc32_to_item32` but the
product is a `double` product. -/
def fc64_to_item32 (num : Fc64) (scale : ℚ) : ℕ :=
  (toU16 (truncZ (fmul64 num.re scale)) <<< 16) ||| toU16 (truncZ (fmul64 num.im scale))

/-- `item32_to_fc64` (lines 101-106): each 16-bit field is reinterpreted
as `int16_t`, multiplied by the double scale factor, and the product is
narrowed through `float(...)` before widening into the double component. -/
def item32_to_fc64 (item : ℕ) (scale : ℚ) : Fc64 :=
  ⟨roundFP 24 (fmul64 (toS16 ((item % 2^32) >>> 16) : ℤ) scale),
   roundFP 24 (fmul64 (toS16 (item % 2^32) : ℤ) scale)⟩

/-- `sc16_to_item16` (lines 111-115): the full 16-bit `uint16_t` real
value is shifted left by 8 and ORed with the full 16-bit imag value;
the `int` result is narrowed to `item16_t` on return. -/
def sc16_to_item16 (num : Sc16) (_scale : ℚ) : ℕ :=
  ((toU16 num.re <<< 8) ||| toU16 num.im) % 2^16

/-- `item16_to_sc16` (lines 120-125): real is `int16_t(item >> 8)`
(a value in `[0, 255]`, hence zero-extended), imag is `int16_t(item)`
(the whole 16-bit word reinterpreted). -/
def item16_to_sc16 (item : ℕ) (_scale : ℚ) : Sc16 :=
  ⟨toS16 ((item % 2^16) >>> 8), toS16 (item % 2^16)⟩

/-- `fc32_to_item16` (lines 130-134): float components are scaled,
truncated to `int16_t`, cast to `uint16_t`, and combined exactly as in
`sc16_to_item16`. -/
def fc32_to_item16 (num : Fc32) (scale : ℚ) : ℕ :=
  ((toU16 (truncZ (fmul32 num.re scale)) <<< 8) ||| toU16 (truncZ (fmul32 num.im scale))) % 2^16

/-- `item16_to_fc32` (lines 139-144): real is `int16_t(item >> 8)`,
imag is `int16_t(item)`, each multiplied by the float scale factor. -/
def item16_to_fc32 (item : ℕ) (scale : ℚ) : Fc32 :=
  ⟨fmul32 (toS16 ((item % 2^16) >>> 8) : ℤ) scale,
   fmul32 (toS16 (item % 2^16) : ℤ) scale⟩

/-- `fc64_to_item16` (lines 149-153): double variant of
`fc32_to_item16`. -/
def fc64_to_item16 (num : Fc64) (scale : ℚ) : ℕ :=
  ((toU16 (truncZ (fmul64 num.re scale)) <<< 8) ||| toU16 (truncZ (fmul64 num.im scale))) % 2^16

/-- `item16_to_fc64` (lines 158-163): double variant of
`item16_to_fc32`; the double product is narrowed through `float(...)`
before widening into the double component. -/
def item16_to_fc64 (item : ℕ) (scale : ℚ) : Fc64 :=
  ⟨roundFP 24 (fmul64 (toS16 ((item % 2^16) >>> 8) : ℤ) scale),
   roundFP 24 (fmul64 (toS16 (item % 2^16) : ℤ) scale)⟩

/-! ## Expansion lemmas for the converters

Stated over variables and proved by `rfl` there, so that concrete
instances can be obtained by rewriting instead of definitional
unfolding. -/

theorem fc32_to_item32_mk (re im scale : ℚ) :
    fc32_to_item32 ⟨re, im⟩ scale =
      (toU16 (truncZ (fmul32 re scale)) <<< 16) ||| toU16 (truncZ (fmul32 im scale)) := rfl

theorem fc64_to_item32_mk (re im scale : ℚ) :
    fc64_to_item32 ⟨re, im⟩ scale =
      (toU16 (truncZ (fmul64 re scale)) <<< 16) ||| toU16 (truncZ (fmul64 im scale)) := rfl

theorem fc32_to_item16_mk (re im scale : ℚ) :
    fc32_to_item16 ⟨re, im⟩ scale =
      ((toU16 (truncZ (fmul32 re scale)) <<< 8) ||| toU16 (truncZ (fmul32 im scale))) % 2^16 := rfl

theorem item16_to_fc32_eq (item : ℕ) (scale : ℚ) :
    item16_to_fc32 item scale =
      ⟨fmul32 ((toS16 ((item % 2^16) >>> 8) : ℤ) : ℚ) scale,
       fmul32 ((toS16 (item % 2^16) : ℤ) : ℚ) scale⟩ := rfl

theorem item32_to_fc64_eq (item : ℕ) (scale : ℚ) :
    item32_to_fc64 item scale =
      ⟨roundFP 24 (fmul64 ((toS16 ((item % 2^32) >>> 16) : ℤ) : ℚ) scale),
       roundFP 24 (fmul64 ((toS16 (item % 2^32) : ℤ) : ℚ) scale)⟩ := rfl

/-! ## Basic lemmas about the integer primitives -/

theorem toU16_lt (x : ℤ) : toU16 x < 2^16 := by
  unfold toU16
  omega

theorem toS16_lb (n : ℕ) : -2^15 ≤ toS16 n := by
  unfold toS16
  split <;> omega

theorem toS16_ub (n : ℕ) : toS16 n < 2^15 := by
  unfold toS16
  split <;> omega

theorem toU16_toS16 (n : ℕ) : toU16 (toS16 n) = n % 2^16 := by
  unfold toU16 toS16
  split <;> omega

theorem toS16_toU16 (x : ℤ) (h1 : -2^15 ≤ x) (h2 : x < 2^15) : toS16 (toU16 x) = x := by
  unfold toU16 toS16
  split <;> omega

theorem toS16_mod (n : ℕ) : toS16 (n % 2^16) = toS16 n := by
  unfold toS16
  simp [Nat.mod_mod_of_dvd]

/-! ## Packing lemmas: field extraction from a 32-bit word -/

theorem hi_of_pack (a b : ℕ) (hb : b < 2^16) : ((a <<< 16) ||| b) >>> 16 = a := by
  apply Nat.eq_of_testBit_eq
  intro i
  simp only [Nat.testBit_shiftRight, Nat.testBit_or, Nat.testBit_shiftLeft]
  have hbi : b.testBit (16 + i) = false :=
    Nat.testBit_lt_two_pow (lt_of_lt_of_le hb (Nat.pow_le_pow_right (by norm_num) (by omega)))
  simp [hbi]

theorem lo_of_pack (a b : ℕ) (hb : b < 2^16) : ((a <<< 16) ||| b) % 2^16 = b := by
  apply Nat.eq_of_testBit_eq
  intro i
  simp only [Nat.testBit_mod_two_pow, Nat.testBit_or, Nat.testBit_shiftLeft]
  rcases lt_or_ge i 16 with h | h
  · have h16 : ¬ (16 ≤ i) := by omega
    simp [h, h16]
  · have hbi : b.testBit i = false :=
      Nat.testBit_lt_two_pow (lt_of_lt_of_le hb (Nat.pow_le_pow_right (by norm_num) h))
    have hi : ¬ (i < 16) := by omega
    simp [hi, hbi]

theorem pack_lt (a b : ℕ) (ha : a < 2^16) (hb : b < 2^16) : ((a <<< 16) ||| b) < 2^32 := by
  apply Nat.or_lt_two_pow
  · rw [Nat.shiftLeft_eq]
    calc a * 2^16 < 2^16 * 2^16 := by
          exact mul_lt_mul_of_pos_right ha (by norm_num)
    _ = 2^32 := by norm_num
  · exact lt_of_lt_of_le hb (by norm_num)

theorem pack_unpack (x : ℕ) : (((x >>> 16) <<< 16) ||| (x % 2^16)) = x := by
  apply Nat.eq_of_testBit_eq
  intro i
  simp only [Nat.testBit_or, Nat.testBit_shiftLeft, Nat.testBit_shiftRight,
    Nat.testBit_mod_two_pow]
  rcases lt_or_ge i 16 with h | h
  · have h16 : ¬ (16 ≤ i) := by omega
    simp [h, h16]
  · have hi : ¬ (i < 16) := by omega
    have : 16 + (i - 16) = i := by omega
    simp [h, hi, this]

/-! ## Lemmas about the floating-point model -/

theorem rne_intCast (n : ℤ) : rne (n : ℚ) = n := by
  unfold rne
  rw [Int.floor_intCast]
  simp

theorem rne_nonneg (x : ℚ) (h : 0 ≤ x) : 0 ≤ rne x := by
  have hf : 0 ≤ ⌊x⌋ := Int.floor_nonneg.mpr h
  unfold rne
  split_ifs <;> omega

theorem rne_le (x : ℚ) (B : ℤ) (h : x < (B : ℚ)) : rne x ≤ B := by
  have hf : ⌊x⌋ < B := Int.floor_lt.mpr h
  unfold rne
  split_ifs <;> omega

/-- The rounded value of a nonzero rational, spelled out. -/
theorem roundFP_of_ne (prec : ℕ) (q : ℚ) (hq : q ≠ 0) :
    roundFP prec q =
      (if 0 ≤ q then 1 else -1) *
        ((rne (|q| * 2 ^ ((prec : ℤ) - 1 - Int.log 2 |q|)) : ℚ) *
          2 ^ (Int.log 2 |q| - ((prec : ℤ) - 1))) := by
  unfold roundFP
  rw [if_neg hq]

/-- Every output of `roundFP prec` carries at most `prec` significand
bits. -/
theorem repFP_roundFP (prec : ℕ) (hp : 0 < prec) (q : ℚ) : repFP prec (roundFP prec q) := by
  by_cases hq : q = 0
  · refine ⟨0, 0, by positivity, ?_⟩
    simp [roundFP, hq]
  · rw [roundFP_of_ne prec q hq]
    set e := Int.log 2 |q| with he
    set m := rne (|q| * 2 ^ ((prec : ℤ) - 1 - e)) with hm
    have habs : (0:ℚ) < |q| := abs_pos.mpr hq
    have hub : |q| < 2 ^ (e + 1) := by
      have := Int.lt_zpow_succ_log_self (b := 2) (by norm_num) |q|
      rw [← he] at this
      exact_mod_cast this
    have hxub : |q| * 2 ^ ((prec : ℤ) - 1 - e) < ((2 ^ prec : ℤ) : ℚ) := by
      have hpow : (0:ℚ) < 2 ^ ((prec : ℤ) - 1 - e) := by positivity
      calc |q| * 2 ^ ((prec : ℤ) - 1 - e)
          < 2 ^ (e + 1) * 2 ^ ((prec : ℤ) - 1 - e) := mul_lt_mul_of_pos_right hub hpow
      _ = 2 ^ ((e + 1) + ((prec : ℤ) - 1 - e)) := (zpow_add₀ (by norm_num : (2:ℚ) ≠ 0) _ _).symm
      _ = 2 ^ (prec : ℤ) := by ring_nf
      _ = ((2 ^ prec : ℤ) : ℚ) := by
            push_cast
            rw [zpow_natCast]
    have hm0 : 0 ≤ m := rne_nonneg _ (by positivity)
    have hmB : m ≤ 2 ^ prec := rne_le _ _ hxub
    rcases eq_or_lt_of_le hmB with hEq | hLt
    · refine ⟨(if 0 ≤ q then 1 else -1) * 2 ^ (prec - 1), e - ((prec : ℤ) - 1) + 1, ?_, ?_⟩
      · have : ((if 0 ≤ q then 1 else -1 : ℤ) * 2 ^ (prec - 1)).natAbs = 2 ^ (prec - 1) := by
          split_ifs <;> simp [Int.natAbs_mul, Int.natAbs_pow]
        rw [this]
        exact Nat.pow_lt_pow_right (by norm_num) (by omega)
      · have h2 : ((m : ℚ)) = 2 ^ prec := by rw [hEq]; push_cast; ring
        have hsplit : ((2:ℚ)) ^ prec = 2 ^ (prec - 1) * 2 := by
          rw [← pow_succ]
          congr 1
          omega
        rw [h2, hsplit]
        rw [zpow_add₀ (by norm_num : (2:ℚ) ≠ 0)]
        split_ifs <;> push_cast <;> ring
    · refine ⟨(if 0 ≤ q then 1 else -1) * m, e - ((prec : ℤ) - 1), ?_, ?_⟩
      · have hnat : ((if 0 ≤ q then 1 else -1 : ℤ) * m).natAbs = m.natAbs := by
          split_ifs <;> simp [Int.natAbs_mul]
        rw [hnat]
        have hc : ((m.natAbs : ℤ)) = m := Int.natAbs_of_nonneg hm0
        have : ((m.natAbs : ℤ)) < ((2 ^ prec : ℕ) : ℤ) := by
          rw [hc]
          exact_mod_cast hLt
        exact_mod_cast this
      · split_ifs <;> push_cast <;> ring

/-- `roundFP` commutes with negation. -/
theorem roundFP_neg (prec : ℕ) (q : ℚ) : roundFP prec (-q) = -roundFP prec q := by
  by_cases hq : q = 0
  · simp [roundFP, hq]
  · have hq2 : -q ≠ 0 := neg_ne_zero.mpr hq
    rw [roundFP_of_ne prec q hq, roundFP_of_ne prec (-q) hq2, abs_neg]
    rcases lt_or_gt_of_ne hq with h | h
    · have h1 : (0:ℚ) ≤ -q := by linarith
      have h2 : ¬ (0:ℚ) ≤ q := by linarith
      rw [if_pos h1, if_neg h2]
      ring
    · have h1 : ¬ (0:ℚ) ≤ -q := by linarith
      have h2 : (0:ℚ) ≤ q := by linarith
      rw [if_neg h1, if_pos h2]
      ring

/-- A natural number below `2^prec` is rounded to itself. -/
theorem roundFP_natCast (prec : ℕ) (_hp : 0 < prec) (n : ℕ) (hn : n < 2^prec) :
    roundFP prec (n : ℚ) = n := by
  rcases Nat.eq_zero_or_pos n with h0 | hpos
  · simp [roundFP, h0]
  · have hq : ((n:ℚ)) ≠ 0 := by positivity
    rw [roundFP_of_ne prec _ hq]
    rw [abs_of_pos (by positivity), if_pos (by positivity)]
    have hlog : Int.log 2 ((n:ℚ)) = Nat.log 2 n := Int.log_natCast 2 n
    have hloglt : Nat.log 2 n < prec := Nat.log_lt_of_lt_pow (by omega) hn
    rw [hlog]
    have hcast : ((prec : ℤ) - 1 - (Nat.log 2 n : ℤ)) = ((prec - 1 - Nat.log 2 n : ℕ) : ℤ) := by
      omega
    rw [hcast]
    have hx : ((n:ℚ)) * 2 ^ (((prec - 1 - Nat.log 2 n : ℕ) : ℤ)) =
        (((n * 2 ^ (prec - 1 - Nat.log 2 n) : ℕ) : ℤ) : ℚ) := by
      rw [zpow_natCast]
      push_cast
      ring
    rw [hx, rne_intCast]
    push_cast
    have hA : ((2:ℚ)) ^ (prec - 1 - Nat.log 2 n) *
        2 ^ ((Nat.log 2 n : ℤ) - ((prec : ℤ) - 1)) = 1 := by
      rw [← zpow_natCast (2:ℚ) (prec - 1 - Nat.log 2 n),
        ← zpow_add₀ (by norm_num : (2:ℚ) ≠ 0)]
      have hz : (((prec - 1 - Nat.log 2 n : ℕ) : ℤ)) + ((Nat.log 2 n : ℤ) - ((prec : ℤ) - 1)) = 0 := by
        omega
      rw [hz, zpow_zero]
    linear_combination ((n : ℚ)) * hA

/-- An integer of magnitude below `2^prec` is rounded to itself. -/
theorem roundFP_intCast (prec : ℕ) (hp : 0 < prec) (m : ℤ) (hm : m.natAbs < 2^prec) :
    roundFP prec (m : ℚ) = m := by
  rcases le_or_lt 0 m with h | h
  · lift m to ℕ using h
    rw [Int.cast_natCast]
    exact_mod_cast roundFP_natCast prec hp m (by simpa using hm)
  · have key := roundFP_natCast prec hp m.natAbs hm
    have hcast : -(((m.natAbs : ℕ) : ℚ)) = (m : ℚ) := by
      have hm2 : ((m : ℚ)) < 0 := by exact_mod_cast h
      push_cast [Int.cast_natAbs]
      rw [abs_of_neg hm2]
      ring
    rw [← hcast, roundFP_neg, key]

/-! ## Concrete evaluation helpers -/

theorem truncZ_int (m : ℤ) : truncZ ((m : ℤ) : ℚ) = m := by
  unfold truncZ
  split
  · exact Int.floor_intCast m
  · exact Int.ceil_intCast m

theorem truncZ_zero : truncZ 0 = 0 := by
  unfold truncZ
  simp

theorem fmul32_by_one (q : ℚ) : fmul32 q 1 = roundFP 24 q := by
  unfold fmul32
  rw [mul_one]

theorem fmul64_by_one (q : ℚ) : fmul64 q 1 = roundFP 53 q := by
  unfold fmul64
  rw [mul_one]

theorem fmul32_zero (s : ℚ) : fmul32 0 s = 0 := by
  unfold fmul32 roundFP
  simp

theorem fmul64_zero (s : ℚ) : fmul64 0 s = 0 := by
  unfold fmul64 roundFP
  simp

/-- The float product `1.9999f * 1.0f`, i.e. `1.9999` rounded to
binary32: it is `16776377 / 2^23`, a value strictly between 1 and 2. -/
theorem fmul32_example : fmul32 ((19999:ℚ)/10000) 1 = (16776377:ℚ) / 8388608 := by
  rw [fmul32_by_one]
  rw [roundFP_of_ne _ _ (by norm_num)]
  rw [abs_of_pos (by norm_num)]
  have hlog : Int.log 2 ((19999:ℚ)/10000) = 0 := by
    rw [Int.log_of_one_le_right _ (by norm_num)]
    have hfl : ⌊(19999:ℚ)/10000⌋₊ = 1 := by
      rw [Nat.floor_eq_iff (by norm_num)]
      constructor <;> norm_num
    rw [hfl]
    simp
  rw [hlog]
  have hx : (19999:ℚ)/10000 * 2 ^ ((((24:ℕ)):ℤ) - 1 - 0) = (167763771392:ℚ)/10000 := by
    push_cast
    norm_num
  rw [hx]
  have hfloor : ⌊(167763771392:ℚ)/10000⌋ = 16776377 := by
    rw [Int.floor_eq_iff]
    constructor <;> norm_num
  have hrne : rne ((167763771392:ℚ)/10000) = 16776377 := by
    unfold rne
    rw [hfloor]
    rw [if_pos (by norm_num)]
  rw [hrne]
  rw [if_pos (by norm_num)]
  push_cast
  norm_num

theorem truncZ_example : truncZ ((16776377:ℚ) / 8388608) = 1 := by
  unfold truncZ
  rw [if_pos (by norm_num)]
  rw [Int.floor_eq_iff]
  constructor <;> norm_num

theorem rne_example : rne ((16776377:ℚ) / 8388608) = 2 := by
  have hfloor : ⌊(16776377:ℚ)/8388608⌋ = 1 := by
    rw [Int.floor_eq_iff]
    constructor <;> norm_num
  unfold rne
  rw [hfloor]
  rw [if_neg (by norm_num), if_pos (by norm_num)]
  norm_num

/-! ## C1: floating-to-fixed conversion truncates toward zero -/

/-- C1: For every floating-point complex sample and every scale factor,
`fc32_to_item32` and `fc64_to_item32` compute each packed integer
component as `truncate_toward_zero(float_component * scale_factor)`
(the real field in bits 31-16, the imag field in bits 15-0); in
particular the float component `1.9999` with scale factor `1.0` yields
integer `1` — truncation — whereas round-to-nearest of the same product
would yield `2`. -/
theorem floating_to_fixed_truncates :
    (∀ (num : Fc32) (s : ℚ),
       (fc32_to_item32 num s) >>> 16 = toU16 (truncZ (fmul32 num.re s)) ∧
       (fc32_to_item32 num s) % 2^16 = toU16 (truncZ (fmul32 num.im s))) ∧
    (∀ (num : Fc64) (s : ℚ),
       (fc64_to_item32 num s) >>> 16 = toU16 (truncZ (fmul64 num.re s)) ∧
       (fc64_to_item32 num s) % 2^16 = toU16 (truncZ (fmul64 num.im s))) ∧
    truncZ (fmul32 ((19999:ℚ)/10000) 1) = 1 ∧
    rne (fmul32 ((19999:ℚ)/10000) 1) = 2 ∧
    (fc32_to_item32 ⟨(19999:ℚ)/10000, 0⟩ 1) >>> 16 = 1 := by
  refine ⟨?_, ?_, ?_, ?_, ?_⟩
  · intro num s
    unfold fc32_to_item32
    exact ⟨hi_of_pack _ _ (toU16_lt _), lo_of_pack _ _ (toU16_lt _)⟩
  · intro num s
    unfold fc64_to_item32
    exact ⟨hi_of_pack _ _ (toU16_lt _), lo_of_pack _ _ (toU16_lt _)⟩
  · rw [fmul32_example]
    exact truncZ_example
  · rw [fmul32_example]
    exact rne_example
  · rw [fc32_to_item32_mk]
    rw [hi_of_pack _ _ (toU16_lt _)]
    rw [fmul32_example, truncZ_example]
    decide

theorem shiftRight16_lt (x : ℕ) (h : x < 2^32) : x >>> 16 < 2^16 := by
  rw [Nat.shiftRight_eq_div_pow]
  omega

/-! ## C2: bit layout of the 32-bit packed complex-short word -/

/-- C2: Packing a complex-short sample into a 32-bit word puts the
two's-complement real component (value mod `2^16`) in bits 31-16 and
the imaginary component in bits 15-0, and unpacking recovers from those
fields 16-bit two's-complement integers: each recovered component lies
in `[-2^15, 2^15)` and agrees with its field modulo `2^16`. -/
theorem sc16_item32_bit_layout :
    (∀ (num : Sc16) (s : ℚ),
       (sc16_to_item32 num s) >>> 16 = toU16 num.re ∧
       (sc16_to_item32 num s) % 2^16 = toU16 num.im ∧
       sc16_to_item32 num s < 2^32) ∧
    (∀ (item : ℕ) (s : ℚ),
       toU16 ((item32_to_sc16 item s).re) = (item % 2^32) >>> 16 ∧
       toU16 ((item32_to_sc16 item s).im) = item % 2^16 ∧
       -2^15 ≤ (item32_to_sc16 item s).re ∧ (item32_to_sc16 item s).re < 2^15 ∧
       -2^15 ≤ (item32_to_sc16 item s).im ∧ (item32_to_sc16 item s).im < 2^15) := by
  constructor
  · intro num s
    unfold sc16_to_item32
    exact ⟨hi_of_pack _ _ (toU16_lt _), lo_of_pack _ _ (toU16_lt _),
      pack_lt _ _ (toU16_lt _) (toU16_lt _)⟩
  · intro item s
    unfold item32_to_sc16
    refine ⟨?_, ?_, toS16_lb _, toS16_ub _, toS16_lb _, toS16_ub _⟩
    · show toU16 (toS16 ((item % 2^32) >>> 16)) = (item % 2^32) >>> 16
      rw [toU16_toS16]
      exact Nat.mod_eq_of_lt (shiftRight16_lt _ (Nat.mod_lt _ (by norm_num)))
    · show toU16 (toS16 (item % 2^32)) = item % 2^16
      rw [toU16_toS16]
      exact Nat.mod_mod_of_dvd _ (by norm_num)

/-! ## C10: the sc16/item32 conversions are mutually inverse and ignore the scale factor -/

/-- C10: For every complex-short sample with components in the 16-bit
two's-complement range and any two scale factors, packing then
unpacking is the identity; conversely unpacking then packing restores
every 32-bit word; and both directions ignore the scale factor
entirely. -/
theorem sc16_item32_roundtrip :
    (∀ (num : Sc16) (a b : ℚ), -2^15 ≤ num.re → num.re < 2^15 →
       -2^15 ≤ num.im → num.im < 2^15 →
       item32_to_sc16 (sc16_to_item32 num a) b = num) ∧
    (∀ (item : ℕ) (a b : ℚ), item < 2^32 →
       sc16_to_item32 (item32_to_sc16 item a) b = item) ∧
    (∀ (num : Sc16) (a b : ℚ), sc16_to_item32 num a = sc16_to_item32 num b) ∧
    (∀ (item : ℕ) (a b : ℚ), item32_to_sc16 item a = item32_to_sc16 item b) := by
  refine ⟨?_, ?_, fun num a b => rfl, fun item a b => rfl⟩
  · rintro ⟨re, im⟩ a b h1 h2 h3 h4
    unfold sc16_to_item32 item32_to_sc16
    have hw : ((toU16 re <<< 16) ||| toU16 im) % 2^32 = (toU16 re <<< 16) ||| toU16 im :=
      Nat.mod_eq_of_lt (pack_lt _ _ (toU16_lt _) (toU16_lt _))
    rw [hw]
    rw [hi_of_pack _ _ (toU16_lt _)]
    rw [Sc16.mk.injEq]
    constructor
    · exact toS16_toU16 re h1 h2
    · rw [← toS16_mod, lo_of_pack _ _ (toU16_lt _)]
      exact toS16_toU16 im h3 h4
  · intro item a b hlt
    unfold item32_to_sc16 sc16_to_item32
    rw [toU16_toS16, toU16_toS16]
    rw [Nat.mod_eq_of_lt hlt]
    have h1 : (item >>> 16) % 2^16 = item >>> 16 :=
      Nat.mod_eq_of_lt (shiftRight16_lt _ hlt)
    rw [h1]
    exact pack_unpack item

/-- Witness for C10 at concrete inputs: the sample `(-2, 3)` with scale
factors 1 and 2 round-trips, and the word `0x12345678` round-trips the
other way. -/
theorem sc16_item32_roundtrip_witness :
    ((-2^15 : ℤ) ≤ -2 ∧ (-2 : ℤ) < 2^15 ∧ (-2^15 : ℤ) ≤ 3 ∧ (3 : ℤ) < 2^15 ∧
      (0x12345678 : ℕ) < 2^32) ∧
    item32_to_sc16 (sc16_to_item32 ⟨-2, 3⟩ 1) 2 = ⟨-2, 3⟩ ∧
    sc16_to_item32 (item32_to_sc16 0x12345678 1) 2 = 0x12345678 :=
  ⟨⟨by decide, by decide, by decide, by decide, by decide⟩,
    sc16_item32_roundtrip.1 ⟨-2, 3⟩ 1 2 (by decide) (by decide) (by decide) (by decide),
    sc16_item32_roundtrip.2.1 0x12345678 1 2 (by decide)⟩

theorem roundFP24_255 : roundFP 24 (255:ℚ) = 255 := by
  have h := roundFP_natCast 24 (by norm_num) 255 (by norm_num)
  norm_num at h
  exact h

theorem roundFP24_256 : roundFP 24 (256:ℚ) = 256 := by
  have h := roundFP_natCast 24 (by norm_num) 256 (by norm_num)
  norm_num at h
  exact h

theorem roundFP24_neg256 : roundFP 24 (-256:ℚ) = -256 := by
  have h := roundFP_intCast 24 (by norm_num) (-256) (by norm_num)
  norm_num at h
  exact h

theorem roundFP24_16 : roundFP 24 (16:ℚ) = 16 := by
  have h := roundFP_natCast 24 (by norm_num) 16 (by norm_num)
  norm_num at h
  exact h

theorem roundFP53_16 : roundFP 53 (16:ℚ) = 16 := by
  have h := roundFP_natCast 53 (by norm_num) 16 (by norm_num)
  norm_num at h
  exact h

theorem roundFP24_32 : roundFP 24 (32:ℚ) = 32 := by
  have h := roundFP_natCast 24 (by norm_num) 32 (by norm_num)
  norm_num at h
  exact h

theorem roundFP53_32 : roundFP 53 (32:ℚ) = 32 := by
  have h := roundFP_natCast 53 (by norm_num) 32 (by norm_num)
  norm_num at h
  exact h

theorem truncZ_256 : truncZ (256:ℚ) = 256 := by
  have h := truncZ_int 256
  norm_num at h
  exact h

theorem truncZ_16 : truncZ (16:ℚ) = 16 := by
  have h := truncZ_int 16
  norm_num at h
  exact h

theorem truncZ_32 : truncZ (32:ℚ) = 32 := by
  have h := truncZ_int 32
  norm_num at h
  exact h

/-! ## C3: the 16-bit pack does not truncate the imaginary component -/

/-- C3 (failing-input evaluation): packing the complex-short sample
`(0, 256)` into the 16-bit word yields `0x0100`, whose real field
(bits 15-8) is `1` even though the real component truncated to 8 bits
is `0`: the imaginary component's high byte is ORed into the real
field, contradicting the claim that the components are truncated to
8 bits and the fields are independent.  The float path behaves the
same way. -/
theorem sc16_item16_imag_leak :
    sc16_to_item16 ⟨0, 256⟩ 1 = 256 ∧
    (sc16_to_item16 ⟨0, 256⟩ 1) >>> 8 = 1 ∧
    toU16 0 % 2^8 = 0 ∧
    fc32_to_item16 ⟨0, (256:ℚ)⟩ 1 = 256 := by
  refine ⟨by decide, by decide, by decide, ?_⟩
  rw [fc32_to_item16_mk]
  rw [fmul32_zero, truncZ_zero, fmul32_by_one, roundFP24_256, truncZ_256]
  decide

/-! ## C4: the 16-bit unpack zero-extends the real byte -/

/-- C4 (failing-input evaluation): unpacking the 16-bit word `0xFF00`
yields real component `255`, not `-1`: the code converts the real byte
`0xFF` through `int16_t(item >> 8)`, a value-preserving conversion of
`255`, instead of sign-extending an 8-bit two's-complement value.  The
imaginary component comes out as `-256` (the whole word reinterpreted
as `int16_t`) rather than the sign-extension `0` of bits 7-0.  The
float path behaves the same way. -/
theorem item16_unpack_zero_extends :
    item16_to_sc16 0xFF00 1 = ⟨255, -256⟩ ∧
    ((255:ℤ) ≠ -1) ∧
    item16_to_fc32 0xFF00 1 = ⟨255, -256⟩ := by
  refine ⟨by decide, by decide, ?_⟩
  have e1 : toS16 ((0xFF00 % 2^16) >>> 8) = 255 := by decide
  have e2 : toS16 (0xFF00 % 2^16) = -256 := by decide
  have c1 : (((255:ℤ)) : ℚ) = (255:ℚ) := by norm_num
  have c2 : (((-256:ℤ)) : ℚ) = (-256:ℚ) := by norm_num
  rw [item16_to_fc32_eq, e1, e2, c1, c2, fmul32_by_one, fmul32_by_one,
    roundFP24_255, roundFP24_neg256]

/-! ## C5: round-trip of the word 0x00100020 through complex64 -/

/-- C5: With scale factor 1.0, the packed 32-bit word `0x00100020`
converts to the complex64 sample `(16.0, 32.0)`, and converting
`(16.0, 32.0)` back with the same scale factor yields exactly
`0x00100020`. -/
theorem item32_fc64_roundtrip_example :
    item32_to_fc64 0x00100020 1 = ⟨16, 32⟩ ∧
    fc64_to_item32 ⟨16, 32⟩ 1 = 0x00100020 := by
  constructor
  · have e1 : toS16 ((0x00100020 % 2^32) >>> 16) = 16 := by decide
    have e2 : toS16 (0x00100020 % 2^32) = 32 := by decide
    have c1 : (((16:ℤ)) : ℚ) = (16:ℚ) := by norm_num
    have c2 : (((32:ℤ)) : ℚ) = (32:ℚ) := by norm_num
    rw [item32_to_fc64_eq, e1, e2, c1, c2, fmul64_by_one, fmul64_by_one,
      roundFP53_16, roundFP53_32, roundFP24_16, roundFP24_32]
  · rw [fc64_to_item32_mk]
    rw [fmul64_by_one, fmul64_by_one, roundFP53_16, roundFP53_32, truncZ_16, truncZ_32]
    decide

/-! ## C9: complex64 outputs carry only single-precision significance -/

/-- C9: For every packed word and every scale factor, each component of
the complex64 outputs of `item32_to_fc64` and `item16_to_fc64` is
exactly representable with a 24-bit (binary32) significand, because the
code narrows the double product through `float(...)` before widening
into the 8-byte component. -/
theorem fc64_outputs_single_precision (item : ℕ) (scale : ℚ) :
    repFP 24 (item32_to_fc64 item scale).re ∧ repFP 24 (item32_to_fc64 item scale).im ∧
    repFP 24 (item16_to_fc64 item scale).re ∧ repFP 24 (item16_to_fc64 item scale).im :=
  ⟨repFP_roundFP 24 (by norm_num) _, repFP_roundFP 24 (by norm_num) _,
   repFP_roundFP 24 (by norm_num) _, repFP_roundFP 24 (by norm_num) _⟩

/-! ## Property-tree model

The property-tree engine itself is not among the sources under
inspection (only its consumers are), so it is modelled from the spec. -/

/-- Errors surfaced by tree operations (spec section 7). -/
inductive PtErr where
  | notFound
  | notInitialized
deriving DecidableEq

/-- Modelled from the spec: `PropertyNode<T>` (spec section 3) — the
node source is not under the inspected sources.  A node holds an
optional stored value, an ordered list of coercions applied
left-to-right on every set, an ordered list of side-effecting
subscribers, and at most one publisher consulted on every get. -/
structure PNode (T : Type) where
  current : Option T
  coercions : List (T → T)
  subscribers : List (T → Unit)
  publisher : Option (Unit → T)

/-- Modelled from the spec: `set` runs the coercions in order on the
proposed value and stores the result as `current` (subscribers are then
invoked for effect only; they do not change the node state). -/
def nodeSet {T : Type} (nd : PNode T) (v : T) : PNode T :=
  let w := nd.coercions.foldl (fun acc f => f acc) v
  { nd with current := some w }

/-- Modelled from the spec: `get` invokes the publisher if one is
registered (never returning the cache), otherwise returns `current`,
failing `NotInitialized` if absent. -/
def nodeGet {T : Type} (nd : PNode T) : Except PtErr T :=
  match nd.publisher with
  | some pub => .ok (pub ())
  | none =>
    match nd.current with
    | some v => .ok v
    | none => .error .notInitialized

/-- Modelled from the spec: the tree owns a mapping from canonical path
(a list of segments) to node; `set(path, value)` updates the node at
the path, failing `NotFound` if the path is absent. -/
def treeSet {T : Type} :
    List (List String × PNode T) → List String → T →
      Except PtErr (List (List String × PNode T))
  | [], _, _ => .error .notFound
  | e :: rest, p, v =>
    if e.1 = p then .ok ((e.1, nodeSet e.2 v) :: rest)
    else
      match treeSet rest p v with
      | .ok t2 => .ok (e :: t2)
      | .error err => .error err

/-- Modelled from the spec: `get(path)` reads the node at the path,
failing `NotFound` if the path is absent. -/
def treeGet {T : Type} :
    List (List String × PNode T) → List String → Except PtErr T
  | [], _ => .error .notFound
  | e :: rest, p => if e.1 = p then nodeGet e.2 else treeGet rest p

/-! ## C6: set followed by get returns the value just set -/

/-- C6: For every path present in the tree whose node has no publisher
and no coercion, and every value `v`, performing `set(p, v)` succeeds
and a subsequent `get(p)` returns exactly `v`. -/
theorem set_then_get (T : Type) (t : List (List String × PNode T))
    (p : List String) (v : T)
    (hmem : ∃ e ∈ t, e.1 = p)
    (hplain : ∀ e ∈ t, e.1 = p → e.2.publisher = none ∧ e.2.coercions = []) :
    ∃ t2, treeSet t p v = .ok t2 ∧ treeGet t2 p = .ok v := by
  induction t with
  | nil =>
    rcases hmem with ⟨x, hx, _⟩
    exact absurd hx (List.not_mem_nil x)
  | cons e rest ih =>
    by_cases hp : e.1 = p
    · refine ⟨(e.1, nodeSet e.2 v) :: rest, ?_, ?_⟩
      · simp [treeSet, hp]
      · have hprops := hplain e (by simp) hp
        simp [treeGet, hp, nodeGet, nodeSet, hprops.1, hprops.2]
    · have hmem2 : ∃ x ∈ rest, x.1 = p := by
        rcases hmem with ⟨x, hx, hxp⟩
        rcases List.mem_cons.mp hx with rfl | hx2
        · exact absurd hxp hp
        · exact ⟨x, hx2, hxp⟩
      have hplain2 : ∀ x ∈ rest, x.1 = p → x.2.publisher = none ∧ x.2.coercions = [] :=
        fun x hx hxp => hplain x (List.mem_cons_of_mem _ hx) hxp
      rcases ih hmem2 hplain2 with ⟨t2, h1, h2⟩
      refine ⟨e :: t2, ?_, ?_⟩
      · simp [treeSet, hp, h1]
      · simp [treeGet, hp, h2]

/-- Witness for C6: a one-node tree holding an uninitialized `ℕ` node
at path `mboards/0/tick_rate` with no publisher and no coercions; after
`set` of `5`, `get` returns `5`. -/
theorem set_then_get_witness :
    (∃ e ∈ [(["mboards", "0", "tick_rate"], (⟨none, [], [], none⟩ : PNode ℕ))],
       e.1 = ["mboards", "0", "tick_rate"]) ∧
    (∃ t2, treeSet [(["mboards", "0", "tick_rate"], (⟨none, [], [], none⟩ : PNode ℕ))]
        ["mboards", "0", "tick_rate"] 5 = .ok t2 ∧
      treeGet t2 ["mboards", "0", "tick_rate"] = .ok 5) :=
  ⟨⟨(["mboards", "0", "tick_rate"], (⟨none, [], [], none⟩ : PNode ℕ)), by simp, rfl⟩,
    set_then_get ℕ _ _ 5
      ⟨(["mboards", "0", "tick_rate"], (⟨none, [], [], none⟩ : PNode ℕ)), by simp, rfl⟩
      (by simp)⟩

/-! ## Block conversion model -/

/-- Modelled from the spec: the block bodies declared through
`DECLARE_CONVERTER` are not among the inspected sources; per the spec a
converter "must write exactly `n` converted samples", applying the
per-sample conversion with the given scale factor to each of the first
`n` input samples. -/
def convertBlock {α β : Type} (f : α → ℚ → β) (inputs : List α) (nsamps : ℕ)
    (scale : ℚ) : List β :=
  (inputs.take nsamps).map (fun x => f x scale)

/-! ## C7: converters are deterministic and stateless -/

/-- C7: The converters are pure functions of the input buffer, the
sample count and the scale factor alone: any two invocations with
identical inputs produce identical outputs (shown for the cited
`fc32_to_item32` and `item32_to_fc32` block conversions).  There is no
other state for an invocation to read or retain. -/
theorem converters_deterministic :
    (∀ (ins1 ins2 : List Fc32) (n1 n2 : ℕ) (s1 s2 : ℚ),
       ins1 = ins2 → n1 = n2 → s1 = s2 →
       convertBlock fc32_to_item32 ins1 n1 s1 = convertBlock fc32_to_item32 ins2 n2 s2) ∧
    (∀ (ins1 ins2 : List ℕ) (n1 n2 : ℕ) (s1 s2 : ℚ),
       ins1 = ins2 → n1 = n2 → s1 = s2 →
       convertBlock item32_to_fc32 ins1 n1 s1 = convertBlock item32_to_fc32 ins2 n2 s2) := by
  constructor
  · rintro ins1 ins2 n1 n2 s1 s2 rfl rfl rfl
    rfl
  · rintro ins1 ins2 n1 n2 s1 s2 rfl rfl rfl
    rfl

/-- Witness for C7 at a concrete invocation pair. -/
theorem converters_deterministic_witness :
    ([⟨1, 0⟩] : List Fc32) = [⟨1, 0⟩] ∧ (1:ℕ) = 1 ∧ (1:ℚ) = 1 ∧
    convertBlock fc32_to_item32 [⟨1, 0⟩] 1 1 = convertBlock fc32_to_item32 [⟨1, 0⟩] 1 1 :=
  ⟨rfl, rfl, rfl, converters_deterministic.1 [⟨1, 0⟩] [⟨1, 0⟩] 1 1 1 1 rfl rfl rfl⟩

/-! ## USRP1 bring-up: property-tree creation order

Transcription of the `_tree->create<...>` calls performed by the
`usrp1_impl` constructor (usrp1_impl.cpp lines 211-371), in program
order, each tagged with the dependency group it belongs to.  The
daughterboard-slot keys are fixed to `A` and `B` by the constructor
(`_dbc["A"]; _dbc["B"];`).  The DDC/DUC counts are read from the
capabilities register at run time and the subdevice names come from the
daughterboard manager, so the model is parameterized over them. -/

/-- Dependency groups of the bring-up hierarchy, ranked in the order
the spec states them (the motherboard sensors directory, created
between the codec and frontend sections, gets its own intermediate
rank). -/
inductive BGroup where
  | capability
  | clock
  | codec
  | sensors
  | frontend
  | dsp
  | time
  | dboard
deriving DecidableEq

/-- Position of each group in the bring-up order. -/
def BGroup.rank : BGroup → ℕ
  | .capability => 0
  | .clock => 1
  | .codec => 2
  | .sensors => 3
  | .frontend => 4
  | .dsp => 5
  | .time => 6
  | .dboard => 7

/-- One `create` call on the property tree: its dependency group and
the created path. -/
structure CreateCall where
  group : BGroup
  path : List String

/-- Lines 212-224: device name, motherboard name, `load_eeprom` and the
motherboard EEPROM — the capability/identity nodes. -/
def identityCreates : List CreateCall :=
  [⟨.capability, ["name"]⟩,
   ⟨.capability, ["mboards", "0", "name"]⟩,
   ⟨.capability, ["mboards", "0", "load_eeprom"]⟩,
   ⟨.capability, ["mboards", "0", "eeprom"]⟩]

/-- Line 237: the master clock rate node. -/
def clockCreates : List CreateCall :=
  [⟨.clock, ["mboards", "0", "tick_rate"]⟩]

/-- Lines 242-255: per-slot codec nodes. -/
def codecCreates (db : String) : List CreateCall :=
  [⟨.codec, ["mboards", "0", "rx_codecs", db, "name"]⟩,
   ⟨.codec, ["mboards", "0", "rx_codecs", db, "gains", "pga", "range"]⟩,
   ⟨.codec, ["mboards", "0", "rx_codecs", db, "gains", "pga", "value"]⟩,
   ⟨.codec, ["mboards", "0", "tx_codecs", db, "name"]⟩,
   ⟨.codec, ["mboards", "0", "tx_codecs", db, "gains", "pga", "range"]⟩,
   ⟨.codec, ["mboards", "0", "tx_codecs", db, "gains", "pga", "value"]⟩]

/-- Line 261: the placeholder sensors directory. -/
def sensorsCreates : List CreateCall :=
  [⟨.sensors, ["mboards", "0", "sensors"]⟩]

/-- Lines 266-269: the RX/TX subdevice-specification frontend nodes. -/
def frontendCreates : List CreateCall :=
  [⟨.frontend, ["mboards", "0", "rx_subdev_spec"]⟩,
   ⟨.frontend, ["mboards", "0", "tx_subdev_spec"]⟩]

/-- Lines 277-283: nodes of one RX DSP chain. -/
def rxDspCreates (dspno : ℕ) : List CreateCall :=
  [⟨.dsp, ["mboards", "0", "rx_dsps", toString dspno, "rate", "value"]⟩,
   ⟨.dsp, ["mboards", "0", "rx_dsps", toString dspno, "freq", "value"]⟩,
   ⟨.dsp, ["mboards", "0", "rx_dsps", toString dspno, "freq", "range"]⟩,
   ⟨.dsp, ["mboards", "0", "rx_dsps", toString dspno, "stream_cmd"]⟩]

/-- Lines 297-302: nodes of one TX DSP chain. -/
def txDspCreates (dspno : ℕ) : List CreateCall :=
  [⟨.dsp, ["mboards", "0", "tx_dsps", toString dspno, "rate", "value"]⟩,
   ⟨.dsp, ["mboards", "0", "tx_dsps", toString dspno, "freq", "value"]⟩,
   ⟨.dsp, ["mboards", "0", "tx_dsps", toString dspno, "freq", "range"]⟩]

/-- Lines 274-303: the DSP-stage section — the `rx_dsps` dummy, the RX
chains for each of the `numDDCs` DDCs, the `tx_dsps` dummy, and the TX
chains for each of the `numDUCs` DUCs. -/
def dspCreates (numDDCs numDUCs : ℕ) : List CreateCall :=
  [⟨.dsp, ["mboards", "0", "rx_dsps"]⟩] ++
    (List.range numDDCs).flatMap rxDspCreates ++
    [⟨.dsp, ["mboards", "0", "tx_dsps"]⟩] ++
    (List.range numDUCs).flatMap txDspCreates

/-- Lines 308-315: the time node and the clock/time source nodes of the
"create time control objects" section. -/
def timeCreates : List CreateCall :=
  [⟨.time, ["mboards", "0", "time", "now"]⟩,
   ⟨.time, ["mboards", "0", "clock_source", "options"]⟩,
   ⟨.time, ["mboards", "0", "time_source", "options"]⟩,
   ⟨.time, ["mboards", "0", "clock_source", "value"]⟩,
   ⟨.time, ["mboards", "0", "time_source", "value"]⟩]

/-- Lines 329-362: per-slot daughterboard nodes — the three EEPROM
nodes, the dboard interface node, and the frontend subtrees populated
by the dboard manager for each RX and TX subdevice name. -/
def dboardCreates (db : String) (rxNames txNames : List String) : List CreateCall :=
  [⟨.dboard, ["mboards", "0", "dboards", db, "rx_eeprom"]⟩,
   ⟨.dboard, ["mboards", "0", "dboards", db, "tx_eeprom"]⟩,
   ⟨.dboard, ["mboards", "0", "dboards", db, "gdb_eeprom"]⟩,
   ⟨.dboard, ["mboards", "0", "dboards", db, "iface"]⟩] ++
    rxNames.map (fun n => ⟨.dboard, ["mboards", "0", "dboards", db, "rx_frontends", n]⟩) ++
    txNames.map (fun n => ⟨.dboard, ["mboards", "0", "dboards", db, "tx_frontends", n]⟩)

/-- The complete sequence of property-tree `create` calls of one run of
the `usrp1_impl` constructor, in program order. -/
def usrp1BringUpCreates (numDDCs numDUCs : ℕ)
    (rxNames txNames : String → List String) : List CreateCall :=
  identityCreates ++ clockCreates ++ (["A", "B"].flatMap codecCreates) ++
    sensorsCreates ++ frontendCreates ++ dspCreates numDDCs numDUCs ++
    timeCreates ++ (["A", "B"].flatMap (fun db => dboardCreates db (rxNames db) (txNames db)))

/-! ### Group constancy of each bring-up section -/

theorem identity_group : ∀ x ∈ identityCreates, x.group = .capability := by
  intro x hx
  simp only [identityCreates, List.mem_cons, List.not_mem_nil, or_false] at hx
  rcases hx with rfl | rfl | rfl | rfl <;> rfl

theorem clock_group : ∀ x ∈ clockCreates, x.group = .clock := by
  intro x hx
  simp only [clockCreates, List.mem_cons, List.not_mem_nil, or_false] at hx
  rcases hx with rfl
  rfl

theorem codec_group : ∀ db : String, ∀ x ∈ codecCreates db, x.group = .codec := by
  intro db x hx
  simp only [codecCreates, List.mem_cons, List.not_mem_nil, or_false] at hx
  rcases hx with rfl | rfl | rfl | rfl | rfl | rfl <;> rfl

theorem codecs_group : ∀ x ∈ (["A", "B"].flatMap codecCreates), x.group = .codec := by
  intro x hx
  rw [List.mem_flatMap] at hx
  rcases hx with ⟨db, _, hx⟩
  exact codec_group db x hx

theorem sensors_group : ∀ x ∈ sensorsCreates, x.group = .sensors := by
  intro x hx
  simp only [sensorsCreates, List.mem_cons, List.not_mem_nil, or_false] at hx
  rcases hx with rfl
  rfl

theorem frontend_group : ∀ x ∈ frontendCreates, x.group = .frontend := by
  intro x hx
  simp only [frontendCreates, List.mem_cons, List.not_mem_nil, or_false] at hx
  rcases hx with rfl | rfl <;> rfl

theorem rxDsp_group : ∀ n : ℕ, ∀ x ∈ rxDspCreates n, x.group = .dsp := by
  intro n x hx
  simp only [rxDspCreates, List.mem_cons, List.not_mem_nil, or_false] at hx
  rcases hx with rfl | rfl | rfl | rfl <;> rfl

theorem txDsp_group : ∀ n : ℕ, ∀ x ∈ txDspCreates n, x.group = .dsp := by
  intro n x hx
  simp only [txDspCreates, List.mem_cons, List.not_mem_nil, or_false] at hx
  rcases hx with rfl | rfl | rfl <;> rfl

theorem dsp_group (numDDCs numDUCs : ℕ) :
    ∀ x ∈ dspCreates numDDCs numDUCs, x.group = .dsp := by
  intro x hx
  unfold dspCreates at hx
  rcases List.mem_append.mp hx with hx | hx
  · rcases List.mem_append.mp hx with hx | hx
    · rcases List.mem_append.mp hx with hx | hx
      · simp only [List.mem_cons, List.not_mem_nil, or_false] at hx
        rcases hx with rfl
        rfl
      · rw [List.mem_flatMap] at hx
        rcases hx with ⟨n, _, hx⟩
        exact rxDsp_group n x hx
    · simp only [List.mem_cons, List.not_mem_nil, or_false] at hx
      rcases hx with rfl
      rfl
  · rw [List.mem_flatMap] at hx
    rcases hx with ⟨n, _, hx⟩
    exact txDsp_group n x hx

theorem time_group : ∀ x ∈ timeCreates, x.group = .time := by
  intro x hx
  simp only [timeCreates, List.mem_cons, List.not_mem_nil, or_false] at hx
  rcases hx with rfl | rfl | rfl | rfl | rfl <;> rfl

theorem dboard_group (db : String) (rxNames txNames : List String) :
    ∀ x ∈ dboardCreates db rxNames txNames, x.group = .dboard := by
  intro x hx
  unfold dboardCreates at hx
  rcases List.mem_append.mp hx with hx | hx
  · rcases List.mem_append.mp hx with hx | hx
    · simp only [List.mem_cons, List.not_mem_nil, or_false] at hx
      rcases hx with rfl | rfl | rfl | rfl <;> rfl
    · rw [List.mem_map] at hx
      rcases hx with ⟨n, _, rfl⟩
      rfl
  · rw [List.mem_map] at hx
    rcases hx with ⟨n, _, rfl⟩
    rfl

theorem dboards_group (rxNames txNames : String → List String) :
    ∀ x ∈ (["A", "B"].flatMap (fun db => dboardCreates db (rxNames db) (txNames db))),
      x.group = .dboard := by
  intro x hx
  rw [List.mem_flatMap] at hx
  rcases hx with ⟨db, _, hx⟩
  exact dboard_group db _ _ x hx

/-! ### Ordering machinery -/

theorem pairwise_const_group {l : List CreateCall} {g : BGroup}
    (h : ∀ x ∈ l, x.group = g) :
    List.Pairwise (fun a b : CreateCall => a.group.rank ≤ b.group.rank) l :=
  List.pairwise_of_forall_mem_list (fun a ha b hb => by rw [h a ha, h b hb])

theorem pairwise_append_ranked {l₁ l₂ : List CreateCall} (k : ℕ)
    (h1 : ∀ x ∈ l₁, x.group.rank ≤ k) (h2 : ∀ x ∈ l₂, k ≤ x.group.rank)
    (p1 : List.Pairwise (fun a b : CreateCall => a.group.rank ≤ b.group.rank) l₁)
    (p2 : List.Pairwise (fun a b : CreateCall => a.group.rank ≤ b.group.rank) l₂) :
    List.Pairwise (fun a b : CreateCall => a.group.rank ≤ b.group.rank) (l₁ ++ l₂) :=
  List.pairwise_append.mpr ⟨p1, p2, fun a ha b hb => le_trans (h1 a ha) (h2 b hb)⟩

theorem rank_ge_append {l₁ l₂ : List CreateCall} {k : ℕ}
    (h1 : ∀ x ∈ l₁, k ≤ x.group.rank) (h2 : ∀ x ∈ l₂, k ≤ x.group.rank) :
    ∀ x ∈ l₁ ++ l₂, k ≤ x.group.rank := by
  intro x hx
  rcases List.mem_append.mp hx with h | h
  · exact h1 x h
  · exact h2 x h

theorem rank_ge_of_group {l : List CreateCall} {g : BGroup} {k : ℕ}
    (h : ∀ x ∈ l, x.group = g) (hk : k ≤ g.rank) :
    ∀ x ∈ l, k ≤ x.group.rank := by
  intro x hx
  rw [h x hx]
  exact hk

theorem rank_le_of_group {l : List CreateCall} {g : BGroup} {k : ℕ}
    (h : ∀ x ∈ l, x.group = g) (hk : g.rank ≤ k) :
    ∀ x ∈ l, x.group.rank ≤ k := by
  intro x hx
  rw [h x hx]
  exact hk

/-! ## C8: the bring-up creates nodes in dependency order -/

/-- C8: For every run of the constructor (any DDC/DUC counts, any
subdevice names), the sequence of property-tree `create` calls is
monotone in the dependency order capability/identity, clock, codecs,
(sensors), frontends, DSP stages, time, daughterboards: every create of
one group precedes every create of any later group. -/
theorem bringup_creates_ordered (numDDCs numDUCs : ℕ)
    (rxNames txNames : String → List String) :
    List.Pairwise (fun a b : CreateCall => a.group.rank ≤ b.group.rank)
      (usrp1BringUpCreates numDDCs numDUCs rxNames txNames) := by
  have hId := identity_group
  have hClk := clock_group
  have hCod := codecs_group
  have hSen := sensors_group
  have hFe := frontend_group
  have hDsp := dsp_group numDDCs numDUCs
  have hTime := time_group
  have hDb := dboards_group rxNames txNames
  unfold usrp1BringUpCreates
  simp only [List.append_assoc]
  refine pairwise_append_ranked 0 (rank_le_of_group hId (by decide)) ?_ (pairwise_const_group hId) ?_
  · refine rank_ge_append (rank_ge_of_group hClk (by decide)) ?_
    refine rank_ge_append (rank_ge_of_group hCod (by decide)) ?_
    refine rank_ge_append (rank_ge_of_group hSen (by decide)) ?_
    refine rank_ge_append (rank_ge_of_group hFe (by decide)) ?_
    refine rank_ge_append (rank_ge_of_group hDsp (by decide)) ?_
    exact rank_ge_append (rank_ge_of_group hTime (by decide)) (rank_ge_of_group hDb (by decide))
  refine pairwise_append_ranked 1 (rank_le_of_group hClk (by decide)) ?_ (pairwise_const_group hClk) ?_
  · refine rank_ge_append (rank_ge_of_group hCod (by decide)) ?_
    refine rank_ge_append (rank_ge_of_group hSen (by decide)) ?_
    refine rank_ge_append (rank_ge_of_group hFe (by decide)) ?_
    refine rank_ge_append (rank_ge_of_group hDsp (by decide)) ?_
    exact rank_ge_append (rank_ge_of_group hTime (by decide)) (rank_ge_of_group hDb (by decide))
  refine pairwise_append_ranked 2 (rank_le_of_group hCod (by decide)) ?_ (pairwise_const_group hCod) ?_
  · refine rank_ge_append (rank_ge_of_group hSen (by decide)) ?_
    refine rank_ge_append (rank_ge_of_group hFe (by decide)) ?_
    refine rank_ge_append (rank_ge_of_group hDsp (by decide)) ?_
    exact rank_ge_append (rank_ge_of_group hTime (by decide)) (rank_ge_of_group hDb (by decide))
  refine pairwise_append_ranked 3 (rank_le_of_group hSen (by decide)) ?_ (pairwise_const_group hSen) ?_
  · refine rank_ge_append (rank_ge_of_group hFe (by decide)) ?_
    refine rank_ge_append (rank_ge_of_group hDsp (by decide)) ?_
    exact rank_ge_append (rank_ge_of_group hTime (by decide)) (rank_ge_of_group hDb (by decide))
  refine pairwise_append_ranked 4 (rank_le_of_group hFe (by decide)) ?_ (pairwise_const_group hFe) ?_
  · refine rank_ge_append (rank_ge_of_group hDsp (by decide)) ?_
    exact rank_ge_append (rank_ge_of_group hTime (by decide)) (rank_ge_of_group hDb (by decide))
  refine pairwise_append_ranked 5 (rank_le_of_group hDsp (by decide)) ?_ (pairwise_const_group hDsp) ?_
  · exact rank_ge_append (rank_ge_of_group hTime (by decide)) (rank_ge_of_group hDb (by decide))
  exact pairwise_append_ranked 6 (rank_le_of_group hTime (by decide))
    (rank_ge_of_group hDb (by decide)) (pairwise_const_group hTime) (pairwise_const_group hDb)

end UHD
